import Mathlib

/-!
Verification development for the feature-map module of the dp-merf
repository (src/code_tab/feature.py).

The module provides an abstract `FeatureMap` contract with two concrete
maps:

* `MarginalCDFMap.gen_features` — per column, `stats.rankdata` (average
  ranks: ties get the mean of the ranks they would occupy) divided by the
  number of rows.
* `RFFKGauss.gen_features` — seeded random Fourier features for a Gaussian
  kernel: inside a `util.NumpySeedContext`, draw an `n_features // 2 × d`
  matrix of standard normals, scale by `1 / sqrt(sigma2)`, project
  `X · Wᵀ`, take `[cos | sin]` column-wise, and scale by
  `sqrt(2 / n_features)`.

Matrices are embedded as a shape (`rows`, `cols`) together with a total
entry function, mirroring a numpy 2-d array; statements about entries only
ever look inside the shape.  The marginal-CDF map is embedded over ℚ
(rank arithmetic is exact rational arithmetic; the float values compared
by `rankdata` are themselves rationals), and the Fourier map over ℝ.  The
numpy global random generator is embedded as an abstract state type `S`
with a seeding function `npSeed` and a drawing function `randn`, threaded
explicitly; every statement about the Fourier map holds for an arbitrary
such stream.
-/

/-- A two-dimensional numeric array: a shape together with a total entry
function.  Entries outside the shape are irrelevant; every statement below
constrains indices to the shape where it matters. -/
structure Mat (α : Type) where
  rows : ℕ
  cols : ℕ
  entry : ℕ → ℕ → α

/-- `scipy.stats.rankdata` with the default `average` method, applied to
the values `x 0, …, x (n-1)`: the rank of entry `i` is the number `sc` of
strictly smaller entries plus the average position, within the tied group,
of the `tc` entries equal to `x i` (including `i` itself), namely
`sc + (tc + 1) / 2`. -/
def rankdata (n : ℕ) (x : ℕ → ℚ) (i : ℕ) : ℚ :=
  (((Finset.range n).filter (fun j => x j < x i)).card : ℚ) +
    ((((Finset.range n).filter (fun j => x j = x i)).card : ℚ) + 1) / 2

/-- `MarginalCDFMap.gen_features`: for each column `j`,
`Z[:, j] = stats.rankdata(X[:, j]) / float(n)`. -/
def MarginalCDFMap.gen_features (X : Mat ℚ) : Mat ℚ :=
  ⟨X.rows, X.cols,
    fun i j => rankdata X.rows (fun r => X.entry r j) i / (X.rows : ℚ)⟩

/-- `MarginalCDFMap.num_features`: `return X.shape[1]`. -/
def MarginalCDFMap.num_features (X : Mat ℚ) : ℕ := X.cols

/-- The spec's description of average ranking: a tied group of `tc` values
preceded by `sc` strictly smaller values occupies ranks
`sc + 1, …, sc + tc`, and each member receives the mean of those ranks. -/
def avgRankSpec (n : ℕ) (x : ℕ → ℚ) (i : ℕ) : ℚ :=
  let sc := ((Finset.range n).filter (fun j => x j < x i)).card
  let tc := ((Finset.range n).filter (fun j => x j = x i)).card
  (∑ k in Finset.Icc (sc + 1) (sc + tc), (k : ℚ)) / (tc : ℚ)

/-- The configuration fields stored by `RFFKGauss.__init__` after
validation: bandwidth² `sigma2` (a Python float, i.e. a rational),
total feature count `n_features` (a Python int) and the stream seed. -/
structure RFFKGauss where
  sigma2 : ℚ
  n_features : ℤ
  seed : ℕ

/-- `RFFKGauss.__init__`: raise `ValueError` when `sigma2 <= 0`, raise
`ValueError` when not `(n_features > 0 and n_features % 2 == 0)`, and
otherwise store the three fields. -/
def RFFKGauss.make (sigma2 : ℚ) (n_features : ℤ) (seed : ℕ) :
    Except String RFFKGauss :=
  if sigma2 ≤ 0 then Except.error "sigma2 is not positive"
  else if ¬(n_features > 0 ∧ n_features % 2 = 0) then
    Except.error "n_features has to be even positive integer"
  else Except.ok ⟨sigma2, n_features, seed⟩

/-- The configurations `RFFKGauss.__init__` accepts. -/
def RFFKGauss.valid (m : RFFKGauss) : Prop :=
  0 < m.sigma2 ∧ 0 < m.n_features ∧ m.n_features % 2 = 0

/-- `draws = self.n_features // 2`, as a natural number usable as a row
count of the frequency matrix. -/
def RFFKGauss.draws (m : RFFKGauss) : ℕ := (m.n_features / 2).toNat

/-- `Except.ok`-ness, used to state when a constructor succeeds. -/
def exceptOk {ε α : Type} : Except ε α → Bool
  | Except.ok _ => true
  | Except.error _ => false

/-- Modelled from the spec: `util.NumpySeedContext` lives in `util.py`,
which is not under `src/`.  Per §4.3 step 1 and §5 of the spec, entering
the context saves the ambient generator state and seeds the generator with
`seed`; leaving it restores the saved state on every exit path, normal or
exceptional.  `body` receives the freshly seeded state and returns its
result (possibly an error value) together with the state it advanced to;
that advanced state is discarded and the saved ambient state `s` is
restored. -/
def NumpySeedContext.run {S α : Type} (npSeed : ℕ → S) (seed : ℕ)
    (body : S → α × S) (s : S) : α × S :=
  ((body (npSeed seed)).1, s)

/-- The possible arguments of `RFFKGauss.gen_features`: a proper 2-d array,
or an object on which the unpacking `n, d = X.shape` raises. -/
inductive NdArray (α : Type) where
  | mat (m : Mat α)
  | notTwoDim

/-- The body of `RFFKGauss.gen_features` after the raw normal draw `w`:
`W = w / np.sqrt(self.sigma2)` entrywise, `XWT = X.dot(W.T)`,
`Z1 = np.cos(XWT)`, `Z2 = np.sin(XWT)`, and
`Z = np.hstack((Z1, Z2)) * np.sqrt(2.0 / self.n_features)`. -/
noncomputable def RFFKGauss.genZ (m : RFFKGauss) (w : ℕ → ℕ → ℝ) (X : Mat ℝ) : Mat ℝ :=
  ⟨X.rows, m.draws + m.draws,
    fun i k =>
      (if k < m.draws then
        Real.cos (∑ j in Finset.range X.cols,
          X.entry i j * (w k j / Real.sqrt (m.sigma2 : ℝ)))
      else
        Real.sin (∑ j in Finset.range X.cols,
          X.entry i j * (w (k - m.draws) j / Real.sqrt (m.sigma2 : ℝ)))) *
      Real.sqrt (2 / (m.n_features : ℝ))⟩

/-- `RFFKGauss.gen_features`, with the ambient numpy generator state
threaded explicitly.  Inside `NumpySeedContext(seed=self.seed)`: unpack
`n, d = X.shape` (raising on a non-2-d argument), draw
`np.random.randn(draws, d)` from the seeded stream (advancing it), and
build `Z` from the draw via `genZ`.  The context restores the prior
ambient state on both exit paths. -/
noncomputable def RFFKGauss.gen_features_st {S : Type} (npSeed : ℕ → S)
    (randn : S → ℕ → ℕ → (ℕ → ℕ → ℝ) × S) (m : RFFKGauss)
    (X : NdArray ℝ) (s : S) : Except String (Mat ℝ) × S :=
  NumpySeedContext.run npSeed m.seed
    (fun s0 =>
      match X with
      | NdArray.notTwoDim => (Except.error "cannot unpack shape", s0)
      | NdArray.mat Xm =>
          let ws := randn s0 m.draws Xm.cols
          (Except.ok (m.genZ ws.1 Xm), ws.2))
    s

/-- `RFFKGauss.num_features`: `return self.n_features`, for any argument
including the default `X=None`. -/
def RFFKGauss.num_features (m : RFFKGauss) (X : Option (NdArray ℝ)) : ℤ :=
  m.n_features

/-- The Fourier-feature pipeline exactly as §4.3 of the spec words it:
`draws = n_features // 2` standard normals per input dimension taken from
the seeded stream, each scaled by `1 / sqrt(sigma2)` to give `W`; the
projection `P = X · Wᵀ`; and the column concatenation `[cos P | sin P]`
scaled by `sqrt(2 / n_features)` — with no further steps. -/
noncomputable def rffSpecPipeline {S : Type} (npSeed : ℕ → S)
    (randn : S → ℕ → ℕ → (ℕ → ℕ → ℝ) × S) (m : RFFKGauss) (X : Mat ℝ) :
    Mat ℝ :=
  let draws := (m.n_features / 2).toNat
  let g := (randn (npSeed m.seed) draws X.cols).1
  let W : ℕ → ℕ → ℝ := fun k j => g k j * (1 / Real.sqrt (m.sigma2 : ℝ))
  let P : ℕ → ℕ → ℝ := fun i k =>
    ∑ j in Finset.range X.cols, X.entry i j * W k j
  ⟨X.rows, draws + draws,
    fun i k =>
      Real.sqrt (2 / (m.n_features : ℝ)) *
        (if k < draws then Real.cos (P i k) else Real.sin (P i (k - draws)))⟩

/-- The abstract `FeatureMap` contract: the two abstract methods plus the
`__call__` wrapper (defined below as `FeatureMap.call`).  `A` is the
argument type and `B` the result type of `gen_features`;
`num_features` takes an optional argument and may raise. -/
structure FeatureMap (A B : Type) where
  gen_features : A → B
  num_features : Option A → Except String ℤ

/-- `FeatureMap.__call__`: `return self.gen_features(X)`. -/
def FeatureMap.call {A B : Type} (fm : FeatureMap A B) (x : A) : B :=
  fm.gen_features x

/-- `MarginalCDFMap` packaged under the abstract contract.  Its
`num_features` requires an argument: on `None` the attribute access
`X.shape` raises. -/
def MarginalCDFMap.toFeatureMap : FeatureMap (Mat ℚ) (Mat ℚ) where
  gen_features := MarginalCDFMap.gen_features
  num_features := fun X? =>
    match X? with
    | none => Except.error "AttributeError"
    | some X => Except.ok (MarginalCDFMap.num_features X : ℤ)

/-- An `RFFKGauss` instance packaged under the abstract contract, with the
ambient generator state passed alongside the data argument. -/
noncomputable def RFFKGauss.toFeatureMap {S : Type} (npSeed : ℕ → S)
    (randn : S → ℕ → ℕ → (ℕ → ℕ → ℝ) × S) (m : RFFKGauss) :
    FeatureMap (NdArray ℝ × S) (Except String (Mat ℝ) × S) where
  gen_features := fun xs => RFFKGauss.gen_features_st npSeed randn m xs.1 xs.2
  num_features := fun X? =>
    match X? with
    | none => Except.ok (m.num_features none)
    | some xs => Except.ok (m.num_features (some xs.1))

/-! ### Helper lemmas about average ranks -/

lemma rank_filters_disjoint (n : ℕ) (x : ℕ → ℚ) (i : ℕ) :
    Disjoint ((Finset.range n).filter (fun j => x j < x i))
      ((Finset.range n).filter (fun j => x j = x i)) := by
  rw [Finset.disjoint_left]
  intro a ha hb
  rw [Finset.mem_filter] at ha hb
  exact absurd (hb.2 ▸ ha.2) (lt_irrefl _)

lemma rank_sc_add_tc_le (n : ℕ) (x : ℕ → ℚ) (i : ℕ) :
    ((Finset.range n).filter (fun j => x j < x i)).card +
      ((Finset.range n).filter (fun j => x j = x i)).card ≤ n := by
  rw [← Finset.card_union_of_disjoint (rank_filters_disjoint n x i)]
  calc (((Finset.range n).filter (fun j => x j < x i)) ∪
        ((Finset.range n).filter (fun j => x j = x i))).card
      ≤ (Finset.range n).card :=
        Finset.card_le_card (Finset.union_subset (Finset.filter_subset _ _)
          (Finset.filter_subset _ _))
    _ = n := Finset.card_range n

lemma rank_tc_pos (n : ℕ) (x : ℕ → ℚ) (i : ℕ) (hi : i < n) :
    1 ≤ ((Finset.range n).filter (fun j => x j = x i)).card := by
  refine Finset.card_pos.mpr ⟨i, ?_⟩
  simp [Finset.mem_filter, Finset.mem_range, hi]

lemma rank_sum_Icc (sc tc : ℕ) :
    (∑ k in Finset.Icc (sc + 1) (sc + tc), (k : ℚ)) * 2 =
      (tc : ℚ) * (2 * sc + tc + 1) := by
  induction tc with
  | zero => simp
  | succ t ih =>
      have h : sc + 1 ≤ (sc + t) + 1 := by omega
      have hst : sc + (t + 1) = (sc + t) + 1 := by omega
      rw [hst, Finset.sum_Icc_succ_top h]
      push_cast
      push_cast at ih
      nlinarith [ih]

lemma rankdata_eq_avgRankSpec (n : ℕ) (x : ℕ → ℚ) (i : ℕ) (hi : i < n) :
    rankdata n x i = avgRankSpec n x i := by
  unfold rankdata avgRankSpec
  set sc := ((Finset.range n).filter (fun j => x j < x i)).card with hsc
  set tc := ((Finset.range n).filter (fun j => x j = x i)).card with htc
  have htc1 : 1 ≤ tc := rank_tc_pos n x i hi
  have htcQ : (tc : ℚ) ≠ 0 := Nat.cast_ne_zero.mpr (by omega)
  have hsum := rank_sum_Icc sc tc
  rw [eq_div_iff htcQ]
  nlinarith [hsum]

lemma rankdata_ge_one (n : ℕ) (x : ℕ → ℚ) (i : ℕ) (hi : i < n) :
    1 ≤ rankdata n x i := by
  unfold rankdata
  have h1 : (1 : ℚ) ≤ (((Finset.range n).filter (fun j => x j = x i)).card : ℚ) := by
    exact_mod_cast rank_tc_pos n x i hi
  have h0 : (0 : ℚ) ≤ (((Finset.range n).filter (fun j => x j < x i)).card : ℚ) :=
    Nat.cast_nonneg _
  linarith

lemma rankdata_le_n (n : ℕ) (x : ℕ → ℚ) (i : ℕ) (hi : i < n) :
    rankdata n x i ≤ (n : ℚ) := by
  unfold rankdata
  have h1 : (1 : ℚ) ≤ (((Finset.range n).filter (fun j => x j = x i)).card : ℚ) := by
    exact_mod_cast rank_tc_pos n x i hi
  have h2 : (((Finset.range n).filter (fun j => x j < x i)).card : ℚ) +
      (((Finset.range n).filter (fun j => x j = x i)).card : ℚ) ≤ (n : ℚ) := by
    exact_mod_cast rank_sc_add_tc_le n x i
  linarith

lemma rankdata_of_unique_max (n : ℕ) (x : ℕ → ℚ) (i0 : ℕ) (hi0 : i0 < n)
    (hmax : ∀ r < n, r ≠ i0 → x r < x i0) :
    rankdata n x i0 = (n : ℚ) := by
  have hlt : ((Finset.range n).filter (fun j => x j < x i0)) =
      (Finset.range n).erase i0 := by
    ext j
    rw [Finset.mem_filter, Finset.mem_erase, Finset.mem_range]
    constructor
    · rintro ⟨hj, hjlt⟩
      refine ⟨?_, hj⟩
      rintro rfl
      exact absurd hjlt (lt_irrefl _)
    · rintro ⟨hne, hj⟩
      exact ⟨hj, hmax j hj hne⟩
  have heq : ((Finset.range n).filter (fun j => x j = x i0)) = {i0} := by
    ext j
    rw [Finset.mem_filter, Finset.mem_singleton, Finset.mem_range]
    constructor
    · rintro ⟨hj, hjeq⟩
      by_contra hne
      exact absurd (hjeq ▸ hmax j hj hne) (lt_irrefl _)
    · rintro rfl
      exact ⟨hi0, rfl⟩
  unfold rankdata
  rw [hlt, heq, Finset.card_erase_of_mem (Finset.mem_range.mpr hi0),
    Finset.card_range, Finset.card_singleton]
  have h1 : 1 ≤ n := by omega
  push_cast [Nat.cast_sub h1]
  ring

/-! ### Claim theorems -/

/-- C3: `MarginalCDFMap.gen_features` computes, for each column `j`
independently, the average rank of each entry — tied values receiving the
mean of the ranks they would occupy — divided by `n`; and on the column
`[1, 1, 2]` (n = 3) the output column is exactly `[1/2, 1/2, 1]`. -/
theorem marginalCDF_avg_rank_over_n :
    (∀ (X : Mat ℚ) (i j : ℕ), i < X.rows →
      (MarginalCDFMap.gen_features X).entry i j =
        avgRankSpec X.rows (fun r => X.entry r j) i / (X.rows : ℚ)) ∧
    ((MarginalCDFMap.gen_features ⟨3, 1, fun i _ => if i = 2 then 2 else 1⟩).entry 0 0
        = 1 / 2 ∧
      (MarginalCDFMap.gen_features ⟨3, 1, fun i _ => if i = 2 then 2 else 1⟩).entry 1 0
        = 1 / 2 ∧
      (MarginalCDFMap.gen_features ⟨3, 1, fun i _ => if i = 2 then 2 else 1⟩).entry 2 0
        = 1) := by
  constructor
  · intro X i j hi
    show rankdata X.rows (fun r => X.entry r j) i / (X.rows : ℚ) = _
    rw [rankdata_eq_avgRankSpec _ _ _ hi]
  · refine ⟨?_, ?_, ?_⟩
    · show rankdata 3 (fun r => if r = 2 then (2 : ℚ) else 1) 0 / ((3 : ℕ) : ℚ)
        = 1 / 2
      unfold rankdata
      have h1 : (Finset.filter
          (fun j => (fun r => if r = 2 then (2 : ℚ) else 1) j <
            (fun r => if r = 2 then (2 : ℚ) else 1) 0)
          (Finset.range 3)).card = 0 := by decide
      have h2 : (Finset.filter
          (fun j => (fun r => if r = 2 then (2 : ℚ) else 1) j =
            (fun r => if r = 2 then (2 : ℚ) else 1) 0)
          (Finset.range 3)).card = 2 := by decide
      rw [h1, h2]
      norm_num
    · show rankdata 3 (fun r => if r = 2 then (2 : ℚ) else 1) 1 / ((3 : ℕ) : ℚ)
        = 1 / 2
      unfold rankdata
      have h1 : (Finset.filter
          (fun j => (fun r => if r = 2 then (2 : ℚ) else 1) j <
            (fun r => if r = 2 then (2 : ℚ) else 1) 1)
          (Finset.range 3)).card = 0 := by decide
      have h2 : (Finset.filter
          (fun j => (fun r => if r = 2 then (2 : ℚ) else 1) j =
            (fun r => if r = 2 then (2 : ℚ) else 1) 1)
          (Finset.range 3)).card = 2 := by decide
      rw [h1, h2]
      norm_num
    · show rankdata 3 (fun r => if r = 2 then (2 : ℚ) else 1) 2 / ((3 : ℕ) : ℚ)
        = 1
      unfold rankdata
      have h1 : (Finset.filter
          (fun j => (fun r => if r = 2 then (2 : ℚ) else 1) j <
            (fun r => if r = 2 then (2 : ℚ) else 1) 2)
          (Finset.range 3)).card = 2 := by decide
      have h2 : (Finset.filter
          (fun j => (fun r => if r = 2 then (2 : ℚ) else 1) j =
            (fun r => if r = 2 then (2 : ℚ) else 1) 2)
          (Finset.range 3)).card = 1 := by decide
      rw [h1, h2]
      norm_num

/-- Witness for C3 at the concrete column `[1, 1, 2]`, row 0. -/
theorem marginalCDF_avg_rank_over_n_witness :
    (MarginalCDFMap.gen_features ⟨3, 1, fun i _ => if i = 2 then 2 else 1⟩).entry 0 0 =
      avgRankSpec 3
        (fun r => (Mat.mk 3 1 (fun i _ => if i = 2 then 2 else 1)).entry r 0) 0 /
        (3 : ℚ) :=
  marginalCDF_avg_rank_over_n.1 ⟨3, 1, fun i _ => if i = 2 then 2 else 1⟩ 0 0
    (by decide)

/-- C6 counterexample: on the 2×1 matrix whose column is `[5, 5]` (so
n = 2 ≥ 1 and the column maximum is tied), both output entries are `3/4`,
so the maximum entry of the output column is `3/4`, not `1` as the claim
states. -/
theorem marginalCDF_max_counterexample :
    (MarginalCDFMap.gen_features ⟨2, 1, fun _ _ => 5⟩).entry 0 0 = 3 / 4 ∧
    (MarginalCDFMap.gen_features ⟨2, 1, fun _ _ => 5⟩).entry 1 0 = 3 / 4 ∧
    (3 / 4 : ℚ) ≠ 1 := by
  refine ⟨?_, ?_, by norm_num⟩
  · show rankdata 2 (fun r => (5 : ℚ)) 0 / ((2 : ℕ) : ℚ) = 3 / 4
    unfold rankdata
    have h1 : (Finset.filter (fun j => (fun r => (5 : ℚ)) j < (fun r => (5 : ℚ)) 0)
        (Finset.range 2)).card = 0 := by decide
    have h2 : (Finset.filter (fun j => (fun r => (5 : ℚ)) j = (fun r => (5 : ℚ)) 0)
        (Finset.range 2)).card = 2 := by decide
    rw [h1, h2]
    norm_num
  · show rankdata 2 (fun r => (5 : ℚ)) 1 / ((2 : ℕ) : ℚ) = 3 / 4
    unfold rankdata
    have h1 : (Finset.filter (fun j => (fun r => (5 : ℚ)) j < (fun r => (5 : ℚ)) 1)
        (Finset.range 2)).card = 0 := by decide
    have h2 : (Finset.filter (fun j => (fun r => (5 : ℚ)) j = (fun r => (5 : ℚ)) 1)
        (Finset.range 2)).card = 2 := by decide
    rw [h1, h2]
    norm_num

/-- C6 (amended): for every matrix with at least one row, every entry of
`MarginalCDFMap.gen_features` lies in the open-closed interval (0, 1]; and
in every column whose maximum value is attained by exactly one row, that
row's entry equals exactly 1 — so such a column's maximum entry is 1. -/
theorem marginalCDF_range_amended (X : Mat ℚ) (j : ℕ) (hn : 0 < X.rows) :
    (∀ i, i < X.rows →
      0 < (MarginalCDFMap.gen_features X).entry i j ∧
        (MarginalCDFMap.gen_features X).entry i j ≤ 1) ∧
    (∀ i0, i0 < X.rows →
      (∀ r, r < X.rows → r ≠ i0 → X.entry r j < X.entry i0 j) →
        (MarginalCDFMap.gen_features X).entry i0 j = 1) := by
  have hnQ : (0 : ℚ) < (X.rows : ℚ) := by exact_mod_cast hn
  constructor
  · intro i hi
    constructor
    · show 0 < rankdata X.rows (fun r => X.entry r j) i / (X.rows : ℚ)
      exact div_pos (lt_of_lt_of_le one_pos (rankdata_ge_one _ _ _ hi)) hnQ
    · show rankdata X.rows (fun r => X.entry r j) i / (X.rows : ℚ) ≤ 1
      rw [div_le_one hnQ]
      exact rankdata_le_n _ _ _ hi
  · intro i0 hi0 hmax
    show rankdata X.rows (fun r => X.entry r j) i0 / (X.rows : ℚ) = 1
    rw [rankdata_of_unique_max _ _ _ hi0 hmax]
    exact div_self (ne_of_gt hnQ)

/-- Witness for the amended C6 on the 1×1 matrix `[[7]]`: the single
entry is positive, at most 1, and (being a untied column maximum) is 1. -/
theorem marginalCDF_range_amended_witness :
    0 < (MarginalCDFMap.gen_features ⟨1, 1, fun _ _ => 7⟩).entry 0 0 ∧
      (MarginalCDFMap.gen_features ⟨1, 1, fun _ _ => 7⟩).entry 0 0 ≤ 1 :=
  (marginalCDF_range_amended ⟨1, 1, fun _ _ => 7⟩ 0 (by decide)).1 0 (by decide)

/-- C1: for fixed configuration and seed, `gen_features` is deterministic:
`MarginalCDFMap.gen_features` is a pure function of `X`; the value
`RFFKGauss.gen_features` computes does not depend on the ambient generator
state, so two calls on the same `X` agree; and two `RFFKGauss` instances
whose `(sigma2, n_features, seed)` coincide produce the same result on the
same `X`. -/
theorem gen_features_deterministic (S : Type) (npSeed : ℕ → S)
    (randn : S → ℕ → ℕ → (ℕ → ℕ → ℝ) × S) (m1 m2 : RFFKGauss)
    (hs : m1.sigma2 = m2.sigma2) (hn : m1.n_features = m2.n_features)
    (hseed : m1.seed = m2.seed) (X : NdArray ℝ) (s1 s2 : S) :
    (∀ Y : Mat ℚ, MarginalCDFMap.gen_features Y = MarginalCDFMap.gen_features Y) ∧
    (RFFKGauss.gen_features_st npSeed randn m1 X s1).1 =
      (RFFKGauss.gen_features_st npSeed randn m1 X s2).1 ∧
    (RFFKGauss.gen_features_st npSeed randn m1 X s1).1 =
      (RFFKGauss.gen_features_st npSeed randn m2 X s2).1 := by
  obtain ⟨a1, b1, c1⟩ := m1
  obtain ⟨a2, b2, c2⟩ := m2
  simp only at hs hn hseed
  subst hs
  subst hn
  subst hseed
  exact ⟨fun Y => rfl, rfl, rfl⟩

/-- Witness for C1: two identically configured instances, run from the
same trivial stream, agree on a concrete 1×1 input. -/
theorem gen_features_deterministic_witness :
    (RFFKGauss.gen_features_st (fun _ => ()) (fun _ _ _ => (fun _ _ => 0, ()))
        ⟨1, 4, 1⟩ (NdArray.mat ⟨1, 1, fun _ _ => 0⟩) ()).1 =
      (RFFKGauss.gen_features_st (fun _ => ()) (fun _ _ _ => (fun _ _ => 0, ()))
        ⟨1, 4, 1⟩ (NdArray.mat ⟨1, 1, fun _ _ => 0⟩) ()).1 :=
  (gen_features_deterministic Unit (fun _ => ())
    (fun _ _ _ => (fun _ _ => 0, ())) ⟨1, 4, 1⟩ ⟨1, 4, 1⟩ rfl rfl rfl
    (NdArray.mat ⟨1, 1, fun _ _ => 0⟩) () ()).2.2

/-- C2: the shape contract.  `MarginalCDFMap.gen_features` returns an
n×d matrix with `d = num_features X`; `RFFKGauss.gen_features` on a 2-d
argument returns `genZ` of the seeded draw, and for a validly constructed
instance `genZ` has n rows and exactly `n_features = num_features`
columns. -/
theorem gen_features_shape :
    (∀ X : Mat ℚ, (MarginalCDFMap.gen_features X).rows = X.rows ∧
      (MarginalCDFMap.gen_features X).cols = MarginalCDFMap.num_features X) ∧
    (∀ (S : Type) (npSeed : ℕ → S) (randn : S → ℕ → ℕ → (ℕ → ℕ → ℝ) × S)
        (m : RFFKGauss) (Xm : Mat ℝ) (s : S),
      (RFFKGauss.gen_features_st npSeed randn m (NdArray.mat Xm) s).1 =
        Except.ok (m.genZ (randn (npSeed m.seed) m.draws Xm.cols).1 Xm)) ∧
    (∀ (m : RFFKGauss) (w : ℕ → ℕ → ℝ) (Xm : Mat ℝ), m.valid →
      (m.genZ w Xm).rows = Xm.rows ∧
        ((m.genZ w Xm).cols : ℤ) = m.num_features (some (NdArray.mat Xm))) := by
  refine ⟨fun X => ⟨rfl, rfl⟩, fun S npSeed randn m Xm s => rfl, ?_⟩
  intro m w Xm hv
  refine ⟨rfl, ?_⟩
  show ((m.draws + m.draws : ℕ) : ℤ) = m.n_features
  have h0 : 0 < m.n_features := hv.2.1
  have h2 : m.n_features % 2 = 0 := hv.2.2
  unfold RFFKGauss.draws
  have hnn : 0 ≤ m.n_features / 2 := by omega
  push_cast [Int.toNat_of_nonneg hnn]
  omega

/-- Witness for C2 on a validly constructed 4-feature map and a 1×1
input. -/
theorem gen_features_shape_witness :
    (RFFKGauss.genZ ⟨1, 4, 1⟩ (fun _ _ => 0) ⟨1, 1, fun _ _ => 0⟩).rows = 1 ∧
      ((RFFKGauss.genZ ⟨1, 4, 1⟩ (fun _ _ => 0) ⟨1, 1, fun _ _ => 0⟩).cols : ℤ) =
        RFFKGauss.num_features ⟨1, 4, 1⟩
          (some (NdArray.mat ⟨1, 1, fun _ _ => 0⟩)) :=
  gen_features_shape.2.2 ⟨1, 4, 1⟩ (fun _ _ => 0) ⟨1, 1, fun _ _ => 0⟩
    ⟨by norm_num, by norm_num, by norm_num⟩

/-- Matrices with the same shape and entrywise-equal entry functions are
equal. -/
lemma Mat.mk_congr {α : Type} (r c : ℕ) (f g : ℕ → ℕ → α)
    (h : ∀ i k, f i k = g i k) : (⟨r, c, f⟩ : Mat α) = ⟨r, c, g⟩ := by
  have : f = g := funext fun i => funext fun k => h i k
  rw [this]

/-- C4: on a 2-d argument, `RFFKGauss.gen_features` returns exactly the
spec pipeline: `n_features // 2 × d` seeded standard normals scaled by
`1 / sqrt(sigma2)`, projected as `X · Wᵀ`, concatenated as
`[cos | sin]` and scaled by `sqrt(2 / n_features)` — with no further
steps. -/
theorem rff_pipeline (S : Type) (npSeed : ℕ → S)
    (randn : S → ℕ → ℕ → (ℕ → ℕ → ℝ) × S) (m : RFFKGauss) (Xm : Mat ℝ)
    (s : S) :
    (RFFKGauss.gen_features_st npSeed randn m (NdArray.mat Xm) s).1 =
      Except.ok (rffSpecPipeline npSeed randn m Xm) := by
  show Except.ok (m.genZ (randn (npSeed m.seed) m.draws Xm.cols).1 Xm) = _
  congr 1
  show m.genZ (randn (npSeed m.seed) m.draws Xm.cols).1 Xm =
    rffSpecPipeline npSeed randn m Xm
  unfold RFFKGauss.genZ rffSpecPipeline RFFKGauss.draws
  apply Mat.mk_congr
  intro i k
  rw [mul_comm]
  congr 1
  split_ifs with hk
  · congr 1
    refine Finset.sum_congr rfl fun j _ => ?_
    rw [div_eq_mul_one_div]
  · congr 1
    refine Finset.sum_congr rfl fun j _ => ?_
    rw [div_eq_mul_one_div]

/-- C5: `RFFKGauss.__init__` fails exactly when `sigma2 ≤ 0` or
`n_features` is not a positive even integer; `sigma2 = 0` and
`n_features = 3` fail, `(sigma2, n_features) = (1, 4)` succeeds, and on
failure no instance is produced (the result carries only the error). -/
theorem rff_make_validation :
    (∀ (sigma2 : ℚ) (n_features : ℤ) (seed : ℕ),
      exceptOk (RFFKGauss.make sigma2 n_features seed) = true ↔
        0 < sigma2 ∧ 0 < n_features ∧ n_features % 2 = 0) ∧
    RFFKGauss.make 0 4 1 = Except.error "sigma2 is not positive" ∧
    RFFKGauss.make 1 3 1 =
      Except.error "n_features has to be even positive integer" ∧
    RFFKGauss.make 1 4 1 = Except.ok ⟨1, 4, 1⟩ := by
  refine ⟨?_, ?_, ?_, ?_⟩
  · intro a nf seed
    unfold RFFKGauss.make
    by_cases h1 : a ≤ 0
    · rw [if_pos h1]
      constructor
      · intro h
        exact absurd h (by simp [exceptOk])
      · rintro ⟨ha, -⟩
        exact absurd ha (not_lt.mpr h1)
    · by_cases h2 : nf > 0 ∧ nf % 2 = 0
      · rw [if_neg h1, if_neg (not_not.mpr h2)]
        exact ⟨fun _ => ⟨not_le.mp h1, h2⟩, fun _ => rfl⟩
      · rw [if_neg h1, if_pos h2]
        constructor
        · intro h
          exact absurd h (by simp [exceptOk])
        · rintro ⟨-, htail⟩
          exact absurd htail h2
  · norm_num [RFFKGauss.make]
  · norm_num [RFFKGauss.make]
  · norm_num [RFFKGauss.make]

/-- C7: `RFFKGauss.gen_features` leaves everything but its return value
unchanged.  In this embedding `X` and the configuration fields are
immutable values, and the theorem states the generator contract: the
ambient generator state coming out of the call equals the state going in,
on the normal path and on the exceptional path (non-2-d argument) alike,
so any subsequent draw from the ambient stream is unaffected by the
call. -/
theorem rff_state_restored :
    (∀ (S : Type) (npSeed : ℕ → S) (randn : S → ℕ → ℕ → (ℕ → ℕ → ℝ) × S)
        (m : RFFKGauss) (X : NdArray ℝ) (s : S),
      (RFFKGauss.gen_features_st npSeed randn m X s).2 = s ∧
      (∀ r c : ℕ,
        randn ((RFFKGauss.gen_features_st npSeed randn m X s).2) r c =
          randn s r c)) ∧
    (∀ (S : Type) (npSeed : ℕ → S) (randn : S → ℕ → ℕ → (ℕ → ℕ → ℝ) × S)
        (m : RFFKGauss) (s : S),
      exceptOk (RFFKGauss.gen_features_st npSeed randn m NdArray.notTwoDim s).1
          = false ∧
        (RFFKGauss.gen_features_st npSeed randn m NdArray.notTwoDim s).2 = s) :=
  ⟨fun S npSeed randn m X s => ⟨rfl, fun r c => rfl⟩,
   fun S npSeed randn m s => ⟨rfl, rfl⟩⟩

/-- C8: `RFFKGauss.num_features` returns the configured `n_features` for
every argument, including the default `None`; in particular the validly
constructed 4-feature instance reports 4. -/
theorem rff_num_features_const :
    (∀ (m : RFFKGauss) (X : Option (NdArray ℝ)),
      m.num_features X = m.n_features) ∧
    RFFKGauss.num_features ⟨1, 4, 1⟩ none = 4 ∧
    RFFKGauss.make 1 4 1 = Except.ok ⟨1, 4, 1⟩ :=
  ⟨fun m X => rfl, rfl, by norm_num [RFFKGauss.make]⟩

/-- C9: call-style invocation is a pure alias for `gen_features`: on the
abstract contract `FeatureMap.call` is definitionally `gen_features`, and
the packaged `MarginalCDFMap` and `RFFKGauss` instances route `call` to
exactly their `gen_features` code path. -/
theorem call_is_gen_features :
    (∀ (A B : Type) (fm : FeatureMap A B) (x : A),
      fm.call x = fm.gen_features x) ∧
    (∀ X : Mat ℚ,
      MarginalCDFMap.toFeatureMap.call X = MarginalCDFMap.gen_features X) ∧
    (∀ (S : Type) (npSeed : ℕ → S) (randn : S → ℕ → ℕ → (ℕ → ℕ → ℝ) × S)
        (m : RFFKGauss) (X : NdArray ℝ) (s : S),
      (RFFKGauss.toFeatureMap npSeed randn m).call (X, s) =
        RFFKGauss.gen_features_st npSeed randn m X s) :=
  ⟨fun A B fm x => rfl, fun X => rfl, fun S npSeed randn m X s => rfl⟩

/-- C10: every entry of the matrix `RFFKGauss.gen_features` returns is a
cosine or sine scaled by `sqrt(2 / n_features)`, so its absolute value is
at most `sqrt(2 / n_features)`. -/
theorem rff_entry_bound :
    (∀ (S : Type) (npSeed : ℕ → S) (randn : S → ℕ → ℕ → (ℕ → ℕ → ℝ) × S)
        (m : RFFKGauss) (Xm : Mat ℝ) (s : S),
      (RFFKGauss.gen_features_st npSeed randn m (NdArray.mat Xm) s).1 =
        Except.ok (m.genZ (randn (npSeed m.seed) m.draws Xm.cols).1 Xm)) ∧
    (∀ (m : RFFKGauss) (w : ℕ → ℕ → ℝ) (Xm : Mat ℝ) (i k : ℕ),
      |(m.genZ w Xm).entry i k| ≤ Real.sqrt (2 / (m.n_features : ℝ))) := by
  refine ⟨fun S npSeed randn m Xm s => rfl, fun m w Xm i k => ?_⟩
  show |(if k < m.draws then _ else _) * Real.sqrt (2 / (m.n_features : ℝ))| ≤ _
  rw [abs_mul, abs_of_nonneg (Real.sqrt_nonneg _)]
  refine mul_le_of_le_one_left (Real.sqrt_nonneg _) ?_
  split_ifs
  · exact Real.abs_cos_le_one _
  · exact Real.abs_sin_le_one _
